import Mathlib

/-!  Shallow embedding of the Mega Sena statistical analysis pipeline
(`megasena.py`): frequency counting, probability derivation, delay
computation, parity patterns, moving-average outlier detection and the
number-suggestion heuristic.  Pandas/NumPy arithmetic is modelled exactly
over `ℚ`; the square root inside NumPy's standard deviation is expressed
with `Real.sqrt` in theorem statements (ℝ has no computable square root,
so the executable definitions below carry the exact variance, the square
of the standard deviation, instead of the standard deviation itself). -/

/-- One DataFrame cell of a `Dezena` column: a numeric value (the scraped
draw numbers are integers), a non-numeric value (e.g. a stray string), or
a missing value (NaN, removed by `dropna`). -/
inductive Cell where
  | num (z : ℤ)
  | other
  | na
  deriving DecidableEq, Repr

/-- One row of the scraped DataFrame: the `Concurso` draw id, the six
`Dezena` columns, and the `SomaDezenas` column that
`analyze_drawing_patterns` writes into the frame (`none` until that
analyzer runs).  The `Data` (date) column plays no role in any analyzer
and is omitted. -/
structure Row where
  concurso : ℤ
  d1 : Cell
  d2 : Cell
  d3 : Cell
  d4 : Cell
  d5 : Cell
  d6 : Cell
  somaDezenas : Option ℚ
  deriving DecidableEq, Repr

/-- The six `Dezena` column accessors, in column order Dezena1 .. Dezena6
(the iteration order of `for i in range(1, 7)` in `analyze_numbers`). -/
def colAccessors : List (Row → Cell) :=
  [Row.d1, Row.d2, Row.d3, Row.d4, Row.d5, Row.d6]

/-- `data[col].dropna().tolist()` for one Dezena column. -/
def colDropna (data : List Row) (c : Row → Cell) : List Cell :=
  (data.map c).filter (fun x => decide (x ≠ Cell.na))

/-- `analyze_numbers`, lines 109-113: the values of the six Dezena
columns, column-major, missing values dropped. -/
def allNumbers (data : List Row) : List Cell :=
  colAccessors.flatMap (fun c => colDropna data c)

/-- `analyze_numbers`, line 115: keep the numeric entries lying in
[1, 60] (`isinstance(n, (int, float)) and 1 <= int(n) <= 60`). -/
def numericNumbers (data : List Row) : List ℤ :=
  (allNumbers data).filterMap (fun c =>
    match c with
    | Cell.num z => if 1 ≤ z ∧ z ≤ 60 then some z else none
    | _ => none)

/-- Distinct values of a list in first-occurrence order (the key order a
pandas `value_counts` hash aggregation produces before sorting). -/
def dedupFirst {α : Type} [DecidableEq α] : List α → List α
  | [] => []
  | x :: xs => x :: dedupFirst (xs.filter (fun y => decide (y ≠ x)))
termination_by l => l.length
decreasing_by
  simp only [List.length_cons]
  exact Nat.lt_succ_of_le (List.length_filter_le _ _)

/-- `pd.Series(l).value_counts()`: each distinct value with its count,
sorted by count descending (`sort_values(ascending=False)`). -/
def valueCounts (l : List ℤ) : List (ℤ × ℕ) :=
  List.insertionSort (fun a b => b.2 ≤ a.2)
    ((dedupFirst l).map (fun z => (z, l.count z)))

/-- `analyze_numbers` (megasena.py 108-126): the frequency table ranked by
count descending, its `min(4, len)` head as `most_common`, its
`min(2, len)` tail as `least_common`, plus the flat list of valid
numbers.  An input with no valid numbers yields four empty results. -/
def analyze_numbers (data : List Row) :
    List (ℤ × ℕ) × List ℤ × List ℤ × List ℤ :=
  let nums := numericNumbers data
  if nums = [] then ([], [], [], [])
  else
    let freq := valueCounts nums
    let most := (freq.take (min 4 freq.length)).map Prod.fst
    let least := (freq.drop (freq.length - min 2 freq.length)).map Prod.fst
    (freq, most, least, nums)

/-- Insertion into a Python (ordered) dict: an existing key keeps its
position and gets the new value, a new key is appended. -/
def odInsert {β : Type} (d : List (ℤ × β)) (k : ℤ) (v : β) : List (ℤ × β) :=
  if (d.map Prod.fst).contains k then
    d.map (fun p => if p.1 = k then (p.1, v) else p)
  else d ++ [(k, v)]

/-- Python `d[k]` / `k in d` combined: the value stored under key `k`. -/
def dictLookup {β : Type} (d : List (ℤ × β)) (k : ℤ) : Option β :=
  (d.find? (fun p => decide (p.1 = k))).map Prod.snd

/-- `series.max()` of a non-empty integer column (`0` is never reached by
the callers, which guard against an empty frame). -/
def maxC : List ℤ → ℤ
  | [] => 0
  | x :: xs => xs.foldl max x

/-- `(data['Dezena1'] == num) | ... | (data['Dezena6'] == num)` for one
row: some Dezena cell equals the (integer) number. -/
def rowHasNum (r : Row) (num : ℤ) : Bool :=
  colAccessors.any (fun c => c r == Cell.num num)

/-- `analyze_delays` (megasena.py 208-230): for each selected number, the
distance from the most recent draw id to the most recent draw id of a
record containing the number, `-1` if the number never appears.  An empty
frame or an empty selection yields an empty dict. -/
def analyze_delays (data : List Row) (selected : List ℤ) : List (ℤ × ℤ) :=
  if data = [] ∨ selected = [] then []
  else
    let last := maxC (data.map (fun r => r.concurso))
    selected.foldl (fun d num =>
      let occ := data.filter (fun r => rowHasNum r num)
      if occ = [] then odInsert d num (-1)
      else odInsert d num (last - maxC (occ.map (fun r => r.concurso)))) []

/-- Numeric value of a cell as pandas `sum`/`%` sees it; `sum(axis=1)`
skips missing values (they contribute 0), and the analyzers are only ever
run on numeric frames, so non-numeric cells are also mapped to 0. -/
def cellVal : Cell → ℚ
  | Cell.num z => (z : ℚ)
  | _ => 0

/-- The `Dezena` cells of one row, in column order. -/
def rowDezenas (r : Row) : List Cell :=
  [r.d1, r.d2, r.d3, r.d4, r.d5, r.d6]

/-- `data[['Dezena1', ..., 'Dezena6']].sum(axis=1)` for one row. -/
def rowSum (r : Row) : ℚ :=
  ((rowDezenas r).map cellVal).sum

/-- `num % 2 == 0` for one cell: an even draw number.  A missing value
(`nan % 2` is `nan`) compares unequal to 0. -/
def cellEven : Cell → Bool
  | Cell.num z => z % 2 == 0
  | _ => false

/-- `sum(1 for num in dezenas if num % 2 == 0)` for one row. -/
def evenCount (r : Row) : ℕ :=
  ((rowDezenas r).filter cellEven).length

/-- Python `round` rounds half to even. -/
def roundHalfEven (q : ℚ) : ℤ :=
  let f := Int.floor q
  let r := q - f
  if r < 1 / 2 then f
  else if 1 / 2 < r then f + 1
  else if f % 2 = 0 then f else f + 1

/-- `round(x, 2)`. -/
def pyRound2 (q : ℚ) : ℚ :=
  (roundHalfEven (q * 100) : ℚ) / 100

/-- `collections.Counter(l)` as an association list: distinct elements in
first-occurrence order, each with its multiplicity. -/
def counterList {α : Type} [DecidableEq α] (l : List α) : List (α × ℕ) :=
  (dedupFirst l).map (fun x => (x, l.count x))

/-- `analyze_drawing_patterns` (megasena.py 232-252).  The first component
is the state of the caller's frame after the call: the function assigns
`data['SomaDezenas'] = data[...].sum(axis=1)`, so every row of a
non-empty frame comes back with its `somaDezenas` field set.  The second
component models the `{'average_sum': round(avg_sum, 2)}` dict (`none`
for the empty dict returned on an empty frame) and the third the
even/odd-split Counter, keyed by the `(evenCount, oddCount)` pair (the
Python label string `f'{e} Pares / {o} Impares'` is a bijective rendering
of that pair). -/
def analyze_drawing_patterns (data : List Row) :
    List Row × Option ℚ × List ((ℕ × ℕ) × ℕ) :=
  if data = [] then (data, none, [])
  else
    let data' := data.map (fun r => { r with somaDezenas := some (rowSum r) })
    let avg := (data'.filterMap (fun r => r.somaDezenas)).sum / (data'.length : ℚ)
    let evenOdd := data'.map (fun r => (evenCount r, 6 - evenCount r))
    (data', some (pyRound2 avg), counterList evenOdd)

/-- `calculate_probabilities` (megasena.py 196-206): scale each count to a
percentage of the total and sort descending; an empty table or a zero
total yields an empty result instead of a division error. -/
def calculate_probabilities (freqS : List (ℤ × ℚ)) : List (ℤ × ℚ) :=
  if freqS = [] then []
  else
    let total := (freqS.map Prod.snd).sum
    if total = 0 then []
    else
      List.insertionSort (fun a b => b.2 ≤ a.2)
        (freqS.map (fun p => (p.1, p.2 / total * 100)))

/-- Zero-padded indexing into a rational vector, with a possibly negative
index: the implicit padding of `np.convolve(..., 'same')`. -/
def padGet (y : List ℚ) (j : ℤ) : ℚ :=
  if h : 0 ≤ j ∧ j.toNat < y.length then y.get ⟨j.toNat, h.2⟩ else 0

/-- `np.convolve(y, np.ones(w)/w, 'same')` for `w ≥ 1`: entry `i` is entry
`i + (w-1)/2` of the full convolution, i.e. the sum of the `w` zero-padded
entries `y[i + (w-1)/2 - t]`, `t = 0 .. w-1`, divided by `w` — a centred
window that shrinks implicitly at the edges. -/
def convSame (y : List ℚ) (w : ℕ) : List ℚ :=
  (List.range y.length).map (fun i : ℕ =>
    ((List.range w).map
      (fun t : ℕ =>
        padGet y ((i : ℤ) + (((w - 1) / 2 : ℕ) : ℤ) - (t : ℤ)))).sum /
      (w : ℚ))

/-- `moving_average` (megasena.py 164-168): `np.zeros_like(data)` for a
non-positive window size, otherwise the `same`-mode convolution. -/
def moving_average (data : List ℚ) (w : ℕ) : List ℚ :=
  if w = 0 then data.map (fun _ => 0) else convSame data w

/-- The square of `np.std(l)`: the population variance, the mean of the
squared deviations from the mean (`0` for an empty vector). -/
def popVariance (l : List ℚ) : ℚ :=
  let m := l.sum / (l.length : ℚ)
  ((l.map (fun x => (x - m) ^ 2)).sum) / (l.length : ℚ)

/-- `explain_anomalies` (megasena.py 170-186).  The first component is the
square of the reported standard deviation (`np.std(residual)`, kept exact
as a variance since ℝ has no computable square root); the anomaly test
`y_i > avg_i + sigma*std or y_i < avg_i - sigma*std` is performed in the
equivalent squared form `sigma^2 * variance < (y_i - avg_i)^2`, exact
over ℚ (the equivalence for `sigma ≥ 0` is proved in
`anomaly_test_iff_real_test` below).  The anomalies dict maps
`frequencies.index[i]` to `y[i]` for each flagged position `i <
len(frequencies.index)`, in loop order. -/
def explain_anomalies (freqS : List (ℤ × ℚ)) (w : ℕ) (sigma : ℚ) :
    ℚ × List (ℤ × ℚ) :=
  let y := freqS.map Prod.snd
  if y.length < w then (0, [])
  else
    let avg := moving_average y w
    let residual := y.zipWith (fun a b => a - b) avg
    let v := popVariance residual
    (v, (y.zip avg).enum.foldl (fun d p =>
      if sigma ^ 2 * v < (p.2.1 - p.2.2) ^ 2 then
        match freqS.get? p.1 with
        | some q => odInsert d q.1 p.2.1
        | none => d
      else d) [])

/-- `analyze_outliers` (megasena.py 157-194): an empty table yields no
outliers and standard deviation 0; otherwise `explain_anomalies` runs with
the default window `min(10, len(frequencies) // 2)` (the `else 1` arm of
the Python conditional expression is dead: it is only reached when the
table is empty, which returns earlier) and `sigma = 1.5`, and the outliers
are the keys of the anomalies dict.  The second component is the square of
the reported standard deviation, as in `explain_anomalies`. -/
def analyze_outliers (freqS : List (ℤ × ℚ)) : List ℤ × ℚ :=
  if freqS = [] then ([], 0)
  else
    let w := min 10 (freqS.length / 2)
    let events := explain_anomalies freqS w (3 / 2)
    (events.2.map Prod.fst, events.1)

/-- The entropy consumed by `suggest_numbers`: `random.shuffle` (modelled
by the list it leaves behind) and `random.sample` (the selection drawn
from a population). -/
structure RandomSource where
  shuffle : List ℤ → List ℤ
  sample : List ℤ → ℕ → List ℤ

/-- What Python's `random` guarantees of the operations `suggest_numbers`
uses: `shuffle` permutes its input in place, and `sample(l, k)` returns
exactly `k` elements whenever `k ≤ len(l)`. -/
def RandomSource.Lawful (r : RandomSource) : Prop :=
  (∀ l, (r.shuffle l).Perm l) ∧
    ∀ l k, k ≤ l.length → (r.sample l k).length = k

/-- `set.add`: a Python set, modelled as a duplicate-free list in
insertion order. -/
def setInsert (s : List ℤ) (x : ℤ) : List ℤ :=
  if x ∈ s then s else s ++ [x]

/-- First loop of `suggest_numbers` (megasena.py 263-267): add most-common
numbers while the set is below the target, `break` once it is full. -/
def addMost (s : List ℤ) (most : List ℤ) (n : ℕ) : List ℤ :=
  match most with
  | [] => s
  | num :: rest => if s.length < n then addMost (setInsert s num) rest n else s

/-- Second loop of `suggest_numbers` (megasena.py 270-274): add a
least-common number only while the set is below the target AND the number
is not already present — the `else` arm is a `break`, so the first
duplicate (or a full set) ends the loop. -/
def addLeast (s : List ℤ) (least : List ℤ) (n : ℕ) : List ℤ :=
  match least with
  | [] => s
  | num :: rest =>
    if s.length < n ∧ num ∉ s then addLeast (s ++ [num]) rest n else s

/-- `while` loop of `suggest_numbers` (megasena.py 281-282): pop from the
front of the shuffled pool while the set is below the target. -/
def fillFrom (s : List ℤ) (avail : List ℤ) (n : ℕ) : List ℤ :=
  match avail with
  | [] => s
  | a :: rest => if s.length < n then fillFrom (setInsert s a) rest n else s

/-- `set(range(1, 61))` — listed ascending; every use is either shuffled
or sorted afterwards, so the iteration order of the Python set is
immaterial. -/
def allPossible : List ℤ :=
  (List.range 60).map (fun i : ℕ => (i : ℤ) + 1)

/-- `suggest_numbers` (megasena.py 255-299), parametrised by the random
source: most-common phase, least-common phase, random fill from the
shuffled complement, ascending sort, then the two corrective branches
(`random.sample` downsampling when too long; a second fill from the — by
then empty — complement when still short). -/
def suggest_numbers (rand : RandomSource) (most_common least_common : List ℤ)
    (num_to_suggest : ℕ) : List ℤ :=
  let s1 := addMost [] most_common num_to_suggest
  let s2 := addLeast s1 least_common num_to_suggest
  let available := rand.shuffle (allPossible.filter (fun x => decide (x ∉ s2)))
  let s3 := fillFrom s2 available num_to_suggest
  let final := List.insertionSort (fun a b : ℤ => a ≤ b) s3
  if num_to_suggest < final.length then
    List.insertionSort (fun a b : ℤ => a ≤ b)
      (rand.sample final num_to_suggest)
  else if final.length < num_to_suggest then
    let remaining := rand.shuffle (allPossible.filter (fun x => decide (x ∉ s3)))
    List.insertionSort (fun a b : ℤ => a ≤ b)
      (final ++
        rand.sample remaining
          (min (num_to_suggest - final.length) remaining.length))
  else final

/-- A cell holding a number the Frequency Analyzer accepts: numeric and
in [1, 60]. -/
def validCellB : Cell → Bool
  | Cell.num z => decide (1 ≤ z ∧ z ≤ 60)
  | _ => false

/-- A validated draw record in the sense of the spec's DrawRecord
invariant: six numeric, pairwise distinct numbers, each in [1, 60]. -/
def ValidRecord (r : Row) : Prop :=
  (∀ c ∈ rowDezenas r, validCellB c = true) ∧ (rowDezenas r).Nodup

instance (r : Row) : Decidable (ValidRecord r) := by
  unfold ValidRecord
  infer_instance

/-- A deterministic stand-in for Python's `random` used by witnesses:
`shuffle` leaves the list as it is and `sample` takes a prefix. -/
def idRand : RandomSource :=
  ⟨fun l => l, fun l k => l.take k⟩

lemma mem_dedupFirst {α : Type} [DecidableEq α] (l : List α) (x : α) :
    x ∈ dedupFirst l ↔ x ∈ l := by
  induction l using dedupFirst.induct with
  | case1 => simp [dedupFirst]
  | case2 y ys ih =>
    rw [dedupFirst]
    simp only [List.mem_cons, ih, List.mem_filter, decide_eq_true_eq]
    constructor
    · rintro (rfl | ⟨h, _⟩)
      · exact Or.inl rfl
      · exact Or.inr h
    · rintro (rfl | h)
      · exact Or.inl rfl
      · by_cases hxy : x = y
        · exact Or.inl hxy
        · exact Or.inr ⟨h, hxy⟩

lemma dedupFirst_nodup {α : Type} [DecidableEq α] (l : List α) :
    (dedupFirst l).Nodup := by
  induction l using dedupFirst.induct with
  | case1 => simp [dedupFirst]
  | case2 y ys ih =>
    rw [dedupFirst]
    refine List.nodup_cons.mpr ⟨?_, ih⟩
    rw [mem_dedupFirst]
    simp

lemma dedupFirst_perm_dedup {α : Type} [DecidableEq α] (l : List α) :
    (dedupFirst l).Perm l.dedup := by
  rw [List.perm_ext_iff_of_nodup (dedupFirst_nodup l) (List.nodup_dedup l)]
  intro a
  rw [mem_dedupFirst, List.mem_dedup]

lemma sum_counts_dedupFirst {α : Type} [DecidableEq α] (l : List α) :
    ((dedupFirst l).map (fun z => l.count z)).sum = l.length := by
  rw [((dedupFirst_perm_dedup l).map (fun z => l.count z)).sum_eq]
  exact List.sum_map_count_dedup_eq_length l

lemma valueCounts_perm (l : List ℤ) :
    (valueCounts l).Perm ((dedupFirst l).map (fun z => (z, l.count z))) :=
  List.perm_insertionSort _ _

lemma sum_valueCounts (l : List ℤ) :
    ((valueCounts l).map Prod.snd).sum = l.length := by
  rw [((valueCounts_perm l).map Prod.snd).sum_eq, List.map_map]
  simpa using sum_counts_dedupFirst l

lemma filterMap_length_of_all_some {α β : Type} (f : α → Option β)
    (l : List α) (h : ∀ x ∈ l, (f x).isSome) :
    (l.filterMap f).length = l.length := by
  induction l with
  | nil => rfl
  | cons a l ih =>
    have ha := h a (List.mem_cons_self a l)
    cases hfa : f a with
    | none => rw [hfa] at ha; simp at ha
    | some b =>
      rw [List.filterMap_cons, hfa, List.length_cons, List.length_cons,
        ih (fun x hx => h x (List.mem_cons_of_mem a hx))]

lemma colAccessor_mem_rowDezenas {a : Row → Cell} (ha : a ∈ colAccessors)
    (r : Row) : a r ∈ rowDezenas r := by
  simp only [colAccessors, List.mem_cons, List.not_mem_nil, or_false] at ha
  rcases ha with rfl | rfl | rfl | rfl | rfl | rfl <;> simp [rowDezenas]

lemma mem_allNumbers_valid {data : List Row}
    (h : ∀ r ∈ data, ValidRecord r) {c : Cell} (hc : c ∈ allNumbers data) :
    validCellB c = true := by
  simp only [allNumbers, List.mem_flatMap] at hc
  obtain ⟨a, ha, hmem⟩ := hc
  simp only [colDropna, List.mem_filter, List.mem_map] at hmem
  obtain ⟨⟨r, hr, rfl⟩, -⟩ := hmem
  exact (h r hr).1 _ (colAccessor_mem_rowDezenas ha r)

lemma colDropna_of_valid {data : List Row}
    (h : ∀ r ∈ data, ValidRecord r) {a : Row → Cell} (ha : a ∈ colAccessors) :
    colDropna data a = data.map a := by
  apply List.filter_eq_self.mpr
  intro c hc
  obtain ⟨r, hr, rfl⟩ := List.mem_map.mp hc
  have hv := (h r hr).1 _ (colAccessor_mem_rowDezenas ha r)
  cases hcell : a r <;> simp_all [validCellB]

lemma numericNumbers_length {data : List Row}
    (h : ∀ r ∈ data, ValidRecord r) :
    (numericNumbers data).length = 6 * data.length := by
  have hall : (allNumbers data).length = 6 * data.length := by
    have h1 : ∀ a ∈ colAccessors, (colDropna data a).length = data.length :=
      fun a ha => by rw [colDropna_of_valid h ha, List.length_map]
    have m1 : (Row.d1 : Row → Cell) ∈ colAccessors := by simp [colAccessors]
    have m2 : (Row.d2 : Row → Cell) ∈ colAccessors := by simp [colAccessors]
    have m3 : (Row.d3 : Row → Cell) ∈ colAccessors := by simp [colAccessors]
    have m4 : (Row.d4 : Row → Cell) ∈ colAccessors := by simp [colAccessors]
    have m5 : (Row.d5 : Row → Cell) ∈ colAccessors := by simp [colAccessors]
    have m6 : (Row.d6 : Row → Cell) ∈ colAccessors := by simp [colAccessors]
    simp only [allNumbers, colAccessors, List.flatMap_cons, List.flatMap_nil,
      List.length_append, List.length_nil]
    rw [h1 _ m1, h1 _ m2, h1 _ m3, h1 _ m4, h1 _ m5, h1 _ m6]
    ring
  rw [numericNumbers, filterMap_length_of_all_some, hall]
  intro c hc
  have hv := mem_allNumbers_valid h hc
  cases c <;> simp_all [validCellB]

/-- C2: over a history of validated records — six numeric, distinct,
in-range numbers each — the counts in the frequency table produced by
`analyze_numbers` sum to exactly 6 per draw. -/
theorem frequency_counts_sum_six_per_draw (data : List Row)
    (h : ∀ r ∈ data, ValidRecord r) :
    (((analyze_numbers data).1).map Prod.snd).sum = 6 * data.length := by
  have hlen := numericNumbers_length h
  by_cases hn : numericNumbers data = []
  · have : data.length = 0 := by
      rw [hn] at hlen
      simpa using hlen.symm
    simp [analyze_numbers, hn, this]
  · simp only [analyze_numbers, hn, if_false]
    rw [sum_valueCounts]
    exact hlen

/-- Witness for C2 at a concrete one-draw history. -/
theorem frequency_counts_sum_witness :
    (((analyze_numbers [⟨1, Cell.num 1, Cell.num 2, Cell.num 3, Cell.num 4,
        Cell.num 5, Cell.num 6, none⟩]).1).map Prod.snd).sum = 6 * 1 := by
  have h := frequency_counts_sum_six_per_draw
    [⟨1, Cell.num 1, Cell.num 2, Cell.num 3, Cell.num 4,
        Cell.num 5, Cell.num 6, none⟩] (by decide)
  simpa using h

lemma mem_numericNumbers {data : List Row} {z : ℤ} :
    z ∈ numericNumbers data ↔
      Cell.num z ∈ allNumbers data ∧ 1 ≤ z ∧ z ≤ 60 := by
  simp only [numericNumbers, List.mem_filterMap]
  constructor
  · rintro ⟨c, hc, hf⟩
    cases c with
    | num z' =>
      by_cases hr : 1 ≤ z' ∧ z' ≤ 60
      · have hf2 : (if 1 ≤ z' ∧ z' ≤ 60 then some z' else none) = some z := hf
        rw [if_pos hr, Option.some.injEq] at hf2
        subst hf2
        exact ⟨hc, hr⟩
      · simp [hr] at hf
    | other => simp at hf
    | na => simp at hf
  · rintro ⟨hc, h1, h2⟩
    refine ⟨Cell.num z, hc, ?_⟩
    simp [h1, h2]

lemma mem_valueCounts {l : List ℤ} {p : ℤ × ℕ} (hp : p ∈ valueCounts l) :
    p.1 ∈ l ∧ p.2 = l.count p.1 := by
  rw [valueCounts, List.mem_insertionSort, List.mem_map] at hp
  obtain ⟨z, hz, rfl⟩ := hp
  exact ⟨(mem_dedupFirst l z).mp hz, rfl⟩

/-- C10: the Frequency Analyzer re-validates its input: an entry of the
(dropna-cleaned) Dezena columns is counted exactly when it is numeric and
lies in [1, 60], so every key of the frequency table — and hence every
member of `most_common` and `least_common` — is an integer in [1, 60],
even when the history contains malformed values. -/
theorem frequency_analyzer_revalidates (data : List Row) :
    (∀ z : ℤ, z ∈ numericNumbers data ↔
      Cell.num z ∈ allNumbers data ∧ 1 ≤ z ∧ z ≤ 60) ∧
    (∀ p ∈ (analyze_numbers data).1, 1 ≤ p.1 ∧ p.1 ≤ 60) ∧
    (∀ z ∈ (analyze_numbers data).2.1, 1 ≤ z ∧ z ≤ 60) ∧
    (∀ z ∈ (analyze_numbers data).2.2.1, 1 ≤ z ∧ z ≤ 60) := by
  refine ⟨fun z => mem_numericNumbers, ?_, ?_, ?_⟩ <;>
    by_cases hn : numericNumbers data = [] <;>
      simp only [analyze_numbers, hn, if_true, if_false, List.not_mem_nil,
        false_implies, implies_true]
  · intro p hp
    have hk := (mem_valueCounts hp).1
    exact (mem_numericNumbers.mp hk).2
  · intro z hz
    rw [List.mem_map] at hz
    obtain ⟨p, hp, rfl⟩ := hz
    have hk := (mem_valueCounts (List.mem_of_mem_take hp)).1
    exact (mem_numericNumbers.mp hk).2
  · intro z hz
    rw [List.mem_map] at hz
    obtain ⟨p, hp, rfl⟩ := hz
    have hk := (mem_valueCounts (List.mem_of_mem_drop hp)).1
    exact (mem_numericNumbers.mp hk).2

/-- Witness for C10 on a malformed history: a string cell, a missing cell
and out-of-range numbers are excluded; the surviving keys are in range. -/
theorem frequency_analyzer_revalidates_witness :
    (7 : ℤ) ∈ numericNumbers [⟨1, Cell.num 7, Cell.other, Cell.na,
        Cell.num 0, Cell.num 61, Cell.num 7, none⟩] ∧
    ¬ (0 : ℤ) ∈ numericNumbers [⟨1, Cell.num 7, Cell.other, Cell.na,
        Cell.num 0, Cell.num 61, Cell.num 7, none⟩] ∧
    ∀ p ∈ (analyze_numbers [⟨1, Cell.num 7, Cell.other, Cell.na,
        Cell.num 0, Cell.num 61, Cell.num 7, none⟩]).1, 1 ≤ p.1 ∧ p.1 ≤ 60 := by
  have h := frequency_analyzer_revalidates [⟨1, Cell.num 7, Cell.other,
    Cell.na, Cell.num 0, Cell.num 61, Cell.num 7, none⟩]
  refine ⟨(h.1 7).mpr (by decide), ?_, h.2.1⟩
  intro hc
  have := (h.1 0).mp hc
  exact absurd this.2.1 (by decide)

/-- C9: an empty history, and a zero-total frequency table, degrade to
empty results everywhere instead of raising: frequency analysis returns an
empty table and empty most/least-common lists, delay analysis returns an
empty table, pattern analysis returns empty outputs (and an unchanged
frame), probability calculation returns an empty mapping — also whenever
the total count is zero, rather than a division error — and outlier
detection reports no outliers and zero deviation. -/
theorem empty_history_empty_results :
    analyze_numbers [] = ([], [], [], []) ∧
    (∀ sel : List ℤ, analyze_delays [] sel = []) ∧
    analyze_drawing_patterns [] = ([], none, []) ∧
    calculate_probabilities [] = [] ∧
    (∀ freqS : List (ℤ × ℚ), (freqS.map Prod.snd).sum = 0 →
      calculate_probabilities freqS = []) ∧
    analyze_outliers [] = ([], 0) := by
  refine ⟨rfl, ?_, rfl, rfl, ?_, rfl⟩
  · intro sel
    simp [analyze_delays]
  · intro freqS h
    by_cases hf : freqS = []
    · simp [hf, calculate_probabilities]
    · simp [calculate_probabilities, hf, h]

/-- Witness for C9: the zero-total branch and a concrete selection. -/
theorem empty_history_empty_results_witness :
    calculate_probabilities [((7 : ℤ), (0 : ℚ))] = [] ∧
    analyze_delays [] [3] = [] := by
  have h := empty_history_empty_results
  exact ⟨h.2.2.2.2.1 [((7 : ℤ), (0 : ℚ))] (by norm_num), h.2.1 [3]⟩

lemma pairwise_of_sort_desc {α : Type} (f : α → ℚ) (l : List α) :
    List.Pairwise (fun a b => f b ≤ f a)
      (List.insertionSort (fun a b => f b ≤ f a) l) := by
  haveI : IsTotal α (fun a b => f b ≤ f a) :=
    ⟨fun a b => le_total (f b) (f a)⟩
  haveI : IsTrans α (fun a b => f b ≤ f a) :=
    ⟨fun a b c hab hbc => le_trans hbc hab⟩
  exact List.sorted_insertionSort _ l

/-- C8: on a non-empty frequency table with positive total,
`calculate_probabilities` returns (a permutation of) the table with each
count scaled to `100 * count / total`, sorted descending by probability,
and the probabilities sum to exactly 100. -/
theorem probabilities_scaled_sorted_sum_100 (freqS : List (ℤ × ℚ))
    (hne : freqS ≠ []) (hpos : 0 < (freqS.map Prod.snd).sum) :
    (calculate_probabilities freqS).Perm
      (freqS.map (fun p => (p.1, 100 * p.2 / (freqS.map Prod.snd).sum))) ∧
    List.Pairwise (fun a b : ℤ × ℚ => b.2 ≤ a.2)
      (calculate_probabilities freqS) ∧
    ((calculate_probabilities freqS).map Prod.snd).sum = 100 := by
  set T := (freqS.map Prod.snd).sum with hT
  have hT0 : T ≠ 0 := ne_of_gt hpos
  have hfun : (fun p : ℤ × ℚ => (p.1, p.2 / T * 100)) =
      (fun p : ℤ × ℚ => (p.1, 100 * p.2 / T)) := by
    funext p
    simp only [Prod.mk.injEq, true_and]
    ring
  have hdef : calculate_probabilities freqS =
      List.insertionSort (fun a b : ℤ × ℚ => b.2 ≤ a.2)
        (freqS.map (fun p => (p.1, p.2 / T * 100))) := by
    rw [calculate_probabilities, if_neg hne, if_neg (by rw [← hT]; exact hT0)]
  have hperm : (calculate_probabilities freqS).Perm
      (freqS.map (fun p => (p.1, 100 * p.2 / T))) := by
    rw [hdef, ← hfun]
    exact List.perm_insertionSort _ _
  refine ⟨hperm, ?_, ?_⟩
  · rw [hdef]
    exact pairwise_of_sort_desc Prod.snd _
  · rw [(hperm.map Prod.snd).sum_eq, List.map_map]
    have : (Prod.snd ∘ fun p : ℤ × ℚ => (p.1, 100 * p.2 / T)) =
        (fun p : ℤ × ℚ => (100 / T) * p.2) := by
      funext p
      simp only [Function.comp_apply]
      ring
    rw [this, List.sum_map_mul_left]
    have hsnd : (List.map (fun p : ℤ × ℚ => p.2) freqS).sum = T := by
      rw [hT]
    rw [hsnd]
    field_simp

/-- Witness for C8 at a concrete two-entry table. -/
theorem probabilities_scaled_witness :
    ((calculate_probabilities [((1 : ℤ), (3 : ℚ)), (2, 1)]).map
      Prod.snd).sum = 100 := by
  exact (probabilities_scaled_sorted_sum_100 [((1 : ℤ), (3 : ℚ)), (2, 1)]
    (by decide) (by norm_num)).2.2

lemma dictLookup_cons {β : Type} (p : ℤ × β) (rest : List (ℤ × β)) (k : ℤ) :
    dictLookup (p :: rest) k =
      if p.1 = k then some p.2 else dictLookup rest k := by
  by_cases h : p.1 = k
  · rw [dictLookup, List.find?_cons_of_pos _ (by simpa using h), if_pos h]
    rfl
  · rw [dictLookup, List.find?_cons_of_neg _ (by simpa using h), if_neg h]
    rfl

lemma keys_not_contains {β : Type} {d : List (ℤ × β)} {k : ℤ}
    (h : ¬ (d.map Prod.fst).contains k = true) : ∀ q ∈ d, q.1 ≠ k := by
  intro q hq hqk
  exact h (by
    simp only [List.contains_eq_any_beq, List.any_eq_true]
    exact ⟨q.1, List.mem_map_of_mem Prod.fst hq, by simp [hqk]⟩)

lemma dictLookup_append_fresh {β : Type} (d : List (ℤ × β)) (k : ℤ) (v : β)
    (h : ∀ p ∈ d, p.1 ≠ k) : dictLookup (d ++ [(k, v)]) k = some v := by
  induction d with
  | nil => simp [dictLookup]
  | cons p rest ih =>
    rw [List.cons_append, dictLookup_cons,
      if_neg (h p (List.mem_cons_self p rest))]
    exact ih (fun q hq => h q (List.mem_cons_of_mem p hq))

lemma dictLookup_map_update {β : Type} (d : List (ℤ × β)) (k : ℤ) (v : β)
    (h : (d.map Prod.fst).contains k = true) :
    dictLookup (d.map (fun p => if p.1 = k then (p.1, v) else p)) k =
      some v := by
  induction d with
  | nil => simp at h
  | cons p rest ih =>
    by_cases hk : p.1 = k
    · rw [List.map_cons, if_pos hk, dictLookup_cons, if_pos hk]
    · have hrest : (rest.map Prod.fst).contains k = true := by
        simp only [List.map_cons, List.contains_cons, Bool.or_eq_true,
          beq_iff_eq] at h
        rcases h with h | h
        · exact absurd h.symm hk
        · exact h
      rw [List.map_cons, if_neg hk, dictLookup_cons, if_neg hk]
      exact ih hrest

lemma map_update_of_fresh {β : Type} (d : List (ℤ × β)) (k : ℤ) (v : β)
    (h : ∀ q ∈ d, q.1 ≠ k) :
    d.map (fun q => if q.1 = k then (q.1, v) else q) = d := by
  induction d with
  | nil => rfl
  | cons p rest ih =>
    rw [List.map_cons, if_neg (h p (List.mem_cons_self p rest)),
      ih (fun q hq => h q (List.mem_cons_of_mem p hq))]

lemma dictLookup_odInsert_self {β : Type} (d : List (ℤ × β)) (k : ℤ)
    (v : β) : dictLookup (odInsert d k v) k = some v := by
  rw [odInsert]
  by_cases hmem : (d.map Prod.fst).contains k = true
  · rw [if_pos hmem]
    exact dictLookup_map_update d k v hmem
  · rw [if_neg hmem]
    exact dictLookup_append_fresh d k v (keys_not_contains hmem)

lemma dictLookup_odInsert_ne {β : Type} (d : List (ℤ × β)) (k k' : ℤ)
    (v : β) (hne : k' ≠ k) :
    dictLookup (odInsert d k v) k' = dictLookup d k' := by
  rw [odInsert]
  by_cases hmem : (d.map Prod.fst).contains k = true
  · rw [if_pos hmem]
    clear hmem
    induction d with
    | nil => rfl
    | cons p rest ih =>
      rw [List.map_cons]
      by_cases hk : p.1 = k
      · rw [if_pos hk, dictLookup_cons, dictLookup_cons]
        have : ¬ p.1 = k' := by
          rw [hk]
          exact fun hc => hne hc.symm
        rw [if_neg this, if_neg this]
        exact ih
      · rw [if_neg hk, dictLookup_cons, dictLookup_cons]
        by_cases hpk : p.1 = k'
        · rw [if_pos hpk, if_pos hpk]
        · rw [if_neg hpk, if_neg hpk]
          exact ih
  · rw [if_neg hmem]
    induction d with
    | nil =>
      rw [List.nil_append, dictLookup_cons, if_neg (fun hc => hne hc.symm)]
    | cons p rest ih =>
      rw [List.cons_append, dictLookup_cons, dictLookup_cons]
      by_cases hpk : p.1 = k'
      · rw [if_pos hpk, if_pos hpk]
      · rw [if_neg hpk, if_neg hpk]
        exact ih (fun hc => hmem (by
          simp only [List.map_cons, List.contains_cons, Bool.or_eq_true]
          exact Or.inr hc))

lemma foldl_odInsert_lookup {β : Type} (f : ℤ → β) :
    ∀ (sel : List ℤ) (acc : List (ℤ × β)) (num : ℤ),
      (num ∈ sel ∨ dictLookup acc num = some (f num)) →
      dictLookup (sel.foldl (fun d n => odInsert d n (f n)) acc) num =
        some (f num) := by
  intro sel
  induction sel with
  | nil =>
    intro acc num h
    rcases h with h | h
    · exact absurd h (List.not_mem_nil num)
    · exact h
  | cons n rest ih =>
    intro acc num h
    rw [List.foldl_cons]
    apply ih
    by_cases hn : num ∈ rest
    · exact Or.inl hn
    · right
      by_cases heq : num = n
      · subst heq
        exact dictLookup_odInsert_self acc num (f num)
      · rw [dictLookup_odInsert_ne acc n num (f n) heq]
        rcases h with hmem | hl
        · rcases List.mem_cons.mp hmem with rfl | h2
          · exact absurd rfl heq
          · exact absurd h2 hn
        · exact hl

lemma foldl_max_bounds :
    ∀ (xs : List ℤ) (a : ℤ),
      a ≤ xs.foldl max a ∧ ∀ x ∈ xs, x ≤ xs.foldl max a := by
  intro xs
  induction xs with
  | nil => exact fun a => ⟨le_refl a, by simp⟩
  | cons y ys ih =>
    intro a
    rw [List.foldl_cons]
    obtain ⟨h1, h2⟩ := ih (max a y)
    refine ⟨le_trans (le_max_left a y) h1, ?_⟩
    intro x hx
    rcases List.mem_cons.mp hx with rfl | hx2
    · exact le_trans (le_max_right a x) h1
    · exact h2 x hx2

lemma foldl_max_le :
    ∀ (xs : List ℤ) (a b : ℤ), a ≤ b → (∀ x ∈ xs, x ≤ b) →
      xs.foldl max a ≤ b := by
  intro xs
  induction xs with
  | nil => exact fun a b hab _ => hab
  | cons y ys ih =>
    intro a b hab h
    rw [List.foldl_cons]
    exact ih (max a y) b (max_le hab (h y (List.mem_cons_self y ys)))
      (fun x hx => h x (List.mem_cons_of_mem y hx))

lemma le_maxC {l : List ℤ} {x : ℤ} (hx : x ∈ l) : x ≤ maxC l := by
  cases l with
  | nil => exact absurd hx (List.not_mem_nil x)
  | cons a as =>
    rw [maxC]
    rcases List.mem_cons.mp hx with rfl | h
    · exact (foldl_max_bounds as x).1
    · exact (foldl_max_bounds as a).2 x h

lemma maxC_le {l : List ℤ} {b : ℤ} (hne : l ≠ []) (h : ∀ x ∈ l, x ≤ b) :
    maxC l ≤ b := by
  cases l with
  | nil => exact absurd rfl hne
  | cons a as =>
    rw [maxC]
    exact foldl_max_le as a b (h a (List.mem_cons_self a as))
      (fun x hx => h x (List.mem_cons_of_mem a hx))

/-- C3: for a non-empty history and any selected number `num` — in-range
or not — `analyze_delays` stores `-1` when no record contains `num`,
stores the difference between the history's maximal draw id and the
maximal draw id among records containing `num` when some record does, and
in particular stores `0` when `num` appears in a record carrying the
maximal draw id (a number appearing only in the most recent draw). -/
theorem delays_recency_spec (data : List Row) (selected : List ℤ)
    (num : ℤ) (hne : data ≠ []) (hmem : num ∈ selected) :
    ((∀ r ∈ data, rowHasNum r num = false) →
      dictLookup (analyze_delays data selected) num = some (-1)) ∧
    ((∃ r ∈ data, rowHasNum r num = true) →
      dictLookup (analyze_delays data selected) num =
        some (maxC (data.map (fun r => r.concurso)) -
          maxC ((data.filter (fun r => rowHasNum r num)).map
            (fun r => r.concurso)))) ∧
    ((∃ r ∈ data, rowHasNum r num = true ∧
        r.concurso = maxC (data.map (fun r => r.concurso))) →
      dictLookup (analyze_delays data selected) num = some 0) := by
  have hsel : selected ≠ [] := fun hc => by
    subst hc
    exact absurd hmem (List.not_mem_nil num)
  have hguard : ¬ (data = [] ∨ selected = []) := by
    rintro (hc | hc)
    · exact hne hc
    · exact hsel hc
  set last := maxC (data.map (fun r => r.concurso)) with hlast
  set delayF : ℤ → ℤ := fun n =>
    if data.filter (fun r => rowHasNum r n) = [] then -1
    else last - maxC ((data.filter (fun r => rowHasNum r n)).map
      (fun r => r.concurso)) with hdelayF
  have hfold : analyze_delays data selected =
      selected.foldl (fun d n => odInsert d n (delayF n)) [] := by
    rw [analyze_delays, if_neg hguard]
    show selected.foldl (fun d n =>
        if data.filter (fun r => rowHasNum r n) = [] then odInsert d n (-1)
        else odInsert d n (last - maxC ((data.filter
          (fun r => rowHasNum r n)).map (fun r => r.concurso)))) [] =
      selected.foldl (fun d n => odInsert d n (delayF n)) []
    congr 1
    funext d n
    simp only [hdelayF]
    exact (apply_ite (odInsert d n) _ _ _).symm
  have hlookup : dictLookup (analyze_delays data selected) num =
      some (delayF num) := by
    rw [hfold]
    exact foldl_odInsert_lookup delayF selected [] num (Or.inl hmem)
  refine ⟨?_, ?_, ?_⟩
  · intro habs
    have hocc : data.filter (fun r => rowHasNum r num) = [] :=
      List.filter_eq_nil_iff.mpr (fun r hr => by simp [habs r hr])
    rw [hlookup, hdelayF]
    simp only [if_pos hocc]
  · rintro ⟨r, hr, hrnum⟩
    have hocc : data.filter (fun r => rowHasNum r num) ≠ [] := by
      intro hc
      have := List.filter_eq_nil_iff.mp hc r hr
      simp [hrnum] at this
    rw [hlookup, hdelayF]
    simp only [if_neg hocc]
  · rintro ⟨r, hr, hrnum, hrmax⟩
    have hrocc : r ∈ data.filter (fun r => rowHasNum r num) :=
      List.mem_filter.mpr ⟨hr, hrnum⟩
    have hocc : data.filter (fun r => rowHasNum r num) ≠ [] := by
      intro hc
      rw [hc] at hrocc
      exact absurd hrocc (List.not_mem_nil r)
    have hle : maxC ((data.filter (fun r => rowHasNum r num)).map
        (fun r => r.concurso)) ≤ last := by
      apply maxC_le
      · simp only [ne_eq, List.map_eq_nil_iff]
        exact hocc
      · intro x hx
        obtain ⟨q, hq, rfl⟩ := List.mem_map.mp hx
        exact le_maxC (List.mem_map_of_mem _ (List.mem_of_mem_filter hq))
    have hge : last ≤ maxC ((data.filter (fun r => rowHasNum r num)).map
        (fun r => r.concurso)) := by
      rw [← hrmax]
      exact le_maxC (List.mem_map_of_mem _ hrocc)
    rw [hlookup, hdelayF]
    simp only [if_neg hocc]
    rw [le_antisymm hle hge]
    simp

/-- Witness for C3: the three-draw scenario of the spec — number 60
appears only in the most recent draw (delay 0) and number 99 never
appears (delay -1). -/
theorem delays_recency_witness :
    dictLookup (analyze_delays
      [⟨1, Cell.num 1, Cell.num 2, Cell.num 3, Cell.num 4, Cell.num 5,
          Cell.num 6, none⟩,
       ⟨2, Cell.num 1, Cell.num 2, Cell.num 3, Cell.num 4, Cell.num 5,
          Cell.num 7, none⟩,
       ⟨3, Cell.num 10, Cell.num 20, Cell.num 30, Cell.num 40, Cell.num 50,
          Cell.num 60, none⟩] [60, 99]) 60 = some 0 ∧
    dictLookup (analyze_delays
      [⟨1, Cell.num 1, Cell.num 2, Cell.num 3, Cell.num 4, Cell.num 5,
          Cell.num 6, none⟩,
       ⟨2, Cell.num 1, Cell.num 2, Cell.num 3, Cell.num 4, Cell.num 5,
          Cell.num 7, none⟩,
       ⟨3, Cell.num 10, Cell.num 20, Cell.num 30, Cell.num 40, Cell.num 50,
          Cell.num 60, none⟩] [60, 99]) 99 = some (-1) := by
  constructor
  · exact (delays_recency_spec _ [60, 99] 60 (by decide)
      (by decide)).2.2 ⟨⟨3, Cell.num 10, Cell.num 20, Cell.num 30,
        Cell.num 40, Cell.num 50, Cell.num 60, none⟩, by decide, by decide,
        by decide⟩
  · exact (delays_recency_spec _ [60, 99] 99 (by decide) (by decide)).1
      (by decide)

/-- C4 counterexample: for a singleton frequency table the default window
size is `min(10, 1 / 2) = 0` — NOT at least 1 — and, far from never
reporting outliers on short histories, `analyze_outliers` flags the
single number as an outlier (its frequency 3 exceeds the all-zero moving
average by more than 1.5 times the zero standard deviation). -/
theorem short_history_window_counterexample :
    min 10 ([((5 : ℤ), (3 : ℚ))].length / 2) = 0 ∧
    analyze_outliers [((5 : ℤ), (3 : ℚ))] = ([5], 0) := by
  constructor
  · rfl
  · norm_num [analyze_outliers, explain_anomalies, moving_average, convSame,
      padGet, popVariance, odInsert, List.enum, List.enumFrom]

/-- C4 amended: the default window size is exactly
`min(10, ⌊len(y) / 2⌋)` with no minimum-1 clamp (0 for a singleton), and
it never exceeds `len(y)`; whenever `len(y) < windowSize`,
`explain_anomalies` reports standard deviation 0 and flags no anomalies —
but that guard can only fire for an explicitly passed window, not for the
default one. -/
theorem outlier_short_input_guard (freqS : List (ℤ × ℚ)) (w : ℕ)
    (sigma : ℚ) (hshort : freqS.length < w) :
    explain_anomalies freqS w sigma = (0, []) ∧
    Real.sqrt (explain_anomalies freqS w sigma).1 = 0 ∧
    min 10 (freqS.length / 2) ≤ freqS.length := by
  have hlen : (freqS.map Prod.snd).length < w := by
    rw [List.length_map]
    exact hshort
  have hmain : explain_anomalies freqS w sigma = (0, []) := by
    rw [explain_anomalies]
    simp only [if_pos hlen]
  refine ⟨hmain, ?_, ?_⟩
  · rw [hmain]
    simp
  · exact le_trans (min_le_right _ _) (Nat.div_le_self _ _)

/-- Witness for the amended C4 guard at a concrete short input. -/
theorem outlier_short_input_guard_witness :
    explain_anomalies [((1 : ℤ), (2 : ℚ))] 5 (3 / 2) = (0, []) :=
  (outlier_short_input_guard [((1 : ℤ), (2 : ℚ))] 5 (3 / 2)
    (by norm_num)).1

/-- C6 counterexample: the least-common loop BREAKS at a duplicate
instead of skipping it.  With accumulated set {5}, target size 3 and
least-common list [5, 7], the loop stops at the duplicate 5 and never
considers 7 — under the claimed skip-and-continue semantics 7 would have
been added (the set is below target and 7 is fresh).  Consequently the
full suggestion built from the identity random source is [1, 2, 5]: the
least-common number 7 is absent. -/
theorem least_common_break_counterexample :
    addLeast [5] [5, 7] 3 = [5] ∧
    suggest_numbers idRand [5] [5, 7] 3 = [1, 2, 5] ∧
    (7 : ℤ) ∉ suggest_numbers idRand [5] [5, 7] 3 := by
  refine ⟨rfl, by decide, by decide⟩

lemma map_eq_self_forall {α : Type} (f : α → α) :
    ∀ (l : List α), l.map f = l → ∀ x ∈ l, f x = x := by
  intro l
  induction l with
  | nil => intro _ x hx; exact absurd hx (List.not_mem_nil x)
  | cons a t ih =>
    intro h x hx
    rw [List.map_cons, List.cons_eq_cons] at h
    rcases List.mem_cons.mp hx with rfl | hx2
    · exact h.1
    · exact ih h.2 x hx2

/-- C6 amended: numbers from least_common are appended in order until the
set reaches the ticket size, the list is exhausted, or a number already
in the accumulated set is encountered — the first duplicate ends the
phase, so later least-common numbers are NOT considered.  Formally, the
phase returns the accumulated set followed by a prefix of least_common
each of whose members was added to a still-short set it was absent from,
and if the prefix is proper, the set had reached the target or the next
number was a duplicate at that point. -/
theorem addLeast_stops_at_first_duplicate (s least : List ℤ) (n : ℕ) :
    ∃ k, k ≤ least.length ∧
      addLeast s least n = s ++ least.take k ∧
      (∀ j, j < k → (s ++ least.take j).length < n ∧
        least.getD j 0 ∉ s ++ least.take j) ∧
      (k < least.length →
        n ≤ (s ++ least.take k).length ∨
          least.getD k 0 ∈ s ++ least.take k) := by
  induction least generalizing s with
  | nil =>
    refine ⟨0, le_refl 0, ?_, ?_, ?_⟩
    · rw [addLeast, List.take_nil, List.append_nil]
    · intro j hj
      exact absurd hj (Nat.not_lt_zero j)
    · intro h
      exact absurd h (Nat.not_lt_zero 0)
  | cons x rest ih =>
    by_cases hcond : s.length < n ∧ x ∉ s
    · obtain ⟨k', hk'len, heq, hadd, hstop⟩ := ih (s ++ [x])
      refine ⟨k' + 1, by simpa using hk'len, ?_, ?_, ?_⟩
      · rw [addLeast, if_pos hcond, heq, List.take_succ_cons,
          List.append_assoc]
        rfl
      · intro j hj
        cases j with
        | zero =>
          simp only [List.take_zero, List.append_nil, List.getD_cons_zero]
          exact hcond
        | succ j' =>
          have hj' : j' < k' := Nat.lt_of_succ_lt_succ hj
          have h2 := hadd j' hj'
          rw [List.take_succ_cons, List.getD_cons_succ]
          constructor
          · rw [show s ++ x :: List.take j' rest =
              (s ++ [x]) ++ List.take j' rest by simp]
            exact h2.1
          · rw [show s ++ x :: List.take j' rest =
              (s ++ [x]) ++ List.take j' rest by simp]
            exact h2.2
      · intro hlt
        have hlt' : k' < rest.length := by simpa using hlt
        rcases hstop hlt' with h1 | h1
        · left
          rw [List.take_succ_cons, show s ++ x :: List.take k' rest =
            (s ++ [x]) ++ List.take k' rest by simp]
          exact h1
        · right
          rw [List.take_succ_cons, List.getD_cons_succ,
            show s ++ x :: List.take k' rest =
              (s ++ [x]) ++ List.take k' rest by simp]
          exact h1
    · refine ⟨0, Nat.zero_le _, ?_, ?_, ?_⟩
      · rw [addLeast, if_neg hcond, List.take_zero, List.append_nil]
      · intro j hj
        exact absurd hj (Nat.not_lt_zero j)
      · intro _
        rw [List.take_zero, List.append_nil, List.getD_cons_zero]
        rcases Decidable.not_and_iff_or_not.mp hcond with h | h
        · exact Or.inl (Nat.le_of_not_lt h)
        · exact Or.inr (Decidable.not_not.mp h)

/-- Witness for the amended C6 at the counterexample input: the added
prefix of [5, 7] is empty and the phase stopped at the duplicate 5. -/
theorem addLeast_stops_witness :
    ∃ k, k ≤ ([(5 : ℤ), 7]).length ∧
      addLeast [5] [5, 7] 3 = [5] ++ ([(5 : ℤ), 7]).take k ∧
      (∀ j, j < k → (([5] : List ℤ) ++ ([(5 : ℤ), 7]).take j).length < 3 ∧
        ([(5 : ℤ), 7]).getD j 0 ∉ ([5] : List ℤ) ++ ([(5 : ℤ), 7]).take j) ∧
      (k < ([(5 : ℤ), 7]).length →
        3 ≤ (([5] : List ℤ) ++ ([(5 : ℤ), 7]).take k).length ∨
          ([(5 : ℤ), 7]).getD k 0 ∈ ([5] : List ℤ) ++ ([(5 : ℤ), 7]).take k) :=
  addLeast_stops_at_first_duplicate [5] [5, 7] 3

/-- C7 counterexample: `analyze_drawing_patterns` does not leave the
caller-owned history unchanged — it assigns the derived SomaDezenas
column into the frame it received (`data['SomaDezenas'] = ...`), so the
frame after the call differs from the frame before it. -/
theorem pattern_analyzer_mutates_frame :
    (analyze_drawing_patterns [⟨1, Cell.num 1, Cell.num 2, Cell.num 3,
        Cell.num 4, Cell.num 5, Cell.num 6, none⟩]).1 ≠
      [⟨1, Cell.num 1, Cell.num 2, Cell.num 3, Cell.num 4, Cell.num 5,
        Cell.num 6, none⟩] := by
  intro h
  have := congrArg (fun l => (l.headD ⟨0, Cell.na, Cell.na, Cell.na,
    Cell.na, Cell.na, Cell.na, none⟩).somaDezenas) h
  simp [analyze_drawing_patterns] at this

/-- C7 amended: the frequency, probability, delay and outlier analyzers
are plain functions of their inputs, but the pattern analyzer is not
frame-preserving: on a non-empty history it hands back the caller's frame
with every row's somaDezenas field overwritten by that row's Dezena sum,
so any frame that did not already carry exactly that column comes back
changed. -/
theorem pattern_analyzer_writes_soma (data : List Row) (hne : data ≠ [])
    (hfresh : ∃ r ∈ data, r.somaDezenas ≠ some (rowSum r)) :
    (analyze_drawing_patterns data).1 =
      data.map (fun r => { r with somaDezenas := some (rowSum r) }) ∧
    (analyze_drawing_patterns data).1 ≠ data := by
  have h1 : (analyze_drawing_patterns data).1 =
      data.map (fun r => { r with somaDezenas := some (rowSum r) }) := by
    rw [analyze_drawing_patterns, if_neg hne]
  refine ⟨h1, ?_⟩
  rw [h1]
  intro hc
  obtain ⟨r, hr, hrs⟩ := hfresh
  have := map_eq_self_forall
    (fun r => { r with somaDezenas := some (rowSum r) }) data hc r hr
  exact hrs (congrArg Row.somaDezenas this).symm

/-- Witness for the amended C7 at a concrete fresh one-row frame. -/
theorem pattern_analyzer_writes_soma_witness :
    (analyze_drawing_patterns [⟨1, Cell.num 1, Cell.num 2, Cell.num 3,
        Cell.num 4, Cell.num 5, Cell.num 6, none⟩]).1 =
      [⟨1, Cell.num 1, Cell.num 2, Cell.num 3, Cell.num 4, Cell.num 5,
        Cell.num 6, some 21⟩] ∧
    (analyze_drawing_patterns [⟨1, Cell.num 1, Cell.num 2, Cell.num 3,
        Cell.num 4, Cell.num 5, Cell.num 6, none⟩]).1 ≠
      [⟨1, Cell.num 1, Cell.num 2, Cell.num 3, Cell.num 4, Cell.num 5,
        Cell.num 6, none⟩] := by
  have h := pattern_analyzer_writes_soma
    [⟨1, Cell.num 1, Cell.num 2, Cell.num 3, Cell.num 4, Cell.num 5,
      Cell.num 6, none⟩] (by simp)
    ⟨⟨1, Cell.num 1, Cell.num 2, Cell.num 3, Cell.num 4, Cell.num 5,
      Cell.num 6, none⟩, by simp, by simp⟩
  refine ⟨?_, h.2⟩
  rw [h.1]
  norm_num [rowSum, rowDezenas, cellVal]

lemma mem_setInsert {s : List ℤ} {x y : ℤ} :
    y ∈ setInsert s x ↔ y ∈ s ∨ y = x := by
  rw [setInsert]
  by_cases h : x ∈ s
  · rw [if_pos h]
    constructor
    · exact Or.inl
    · rintro (hy | rfl)
      · exact hy
      · exact h
  · rw [if_neg h]
    simp

lemma setInsert_nodup {s : List ℤ} (h : s.Nodup) (x : ℤ) :
    (setInsert s x).Nodup := by
  rw [setInsert]
  by_cases hx : x ∈ s
  · rwa [if_pos hx]
  · rw [if_neg hx]
    simp [List.nodup_append, h, hx]

lemma setInsert_length_le (s : List ℤ) (x : ℤ) :
    (setInsert s x).length ≤ s.length + 1 := by
  rw [setInsert]
  by_cases hx : x ∈ s
  · rw [if_pos hx]
    exact Nat.le_succ _
  · rw [if_neg hx]
    simp

lemma addMost_mem {m : List ℤ} :
    ∀ {s : List ℤ} {n : ℕ} {y : ℤ}, y ∈ addMost s m n → y ∈ s ∨ y ∈ m := by
  induction m with
  | nil =>
    intro s n y h
    exact Or.inl h
  | cons x rest ih =>
    intro s n y h
    rw [addMost] at h
    by_cases hc : s.length < n
    · rw [if_pos hc] at h
      rcases ih h with h2 | h2
      · rcases mem_setInsert.mp h2 with h3 | rfl
        · exact Or.inl h3
        · exact Or.inr (List.mem_cons_self y rest)
      · exact Or.inr (List.mem_cons_of_mem x h2)
    · rw [if_neg hc] at h
      exact Or.inl h

lemma addMost_nodup {m : List ℤ} :
    ∀ {s : List ℤ} {n : ℕ}, s.Nodup → (addMost s m n).Nodup := by
  induction m with
  | nil => exact fun h => h
  | cons x rest ih =>
    intro s n h
    rw [addMost]
    by_cases hc : s.length < n
    · rw [if_pos hc]
      exact ih (setInsert_nodup h x)
    · rwa [if_neg hc]

lemma addMost_length_le {m : List ℤ} :
    ∀ {s : List ℤ} {n : ℕ}, s.length ≤ n → (addMost s m n).length ≤ n := by
  induction m with
  | nil => exact fun h => h
  | cons x rest ih =>
    intro s n h
    rw [addMost]
    by_cases hc : s.length < n
    · rw [if_pos hc]
      exact ih (le_trans (setInsert_length_le s x) hc)
    · rwa [if_neg hc]

lemma addLeast_mem {m : List ℤ} :
    ∀ {s : List ℤ} {n : ℕ} {y : ℤ}, y ∈ addLeast s m n → y ∈ s ∨ y ∈ m := by
  induction m with
  | nil =>
    intro s n y h
    exact Or.inl h
  | cons x rest ih =>
    intro s n y h
    rw [addLeast] at h
    by_cases hc : s.length < n ∧ x ∉ s
    · rw [if_pos hc] at h
      rcases ih h with h2 | h2
      · rcases List.mem_append.mp h2 with h3 | h3
        · exact Or.inl h3
        · rcases List.mem_singleton.mp h3 with rfl
          exact Or.inr (List.mem_cons_self y rest)
      · exact Or.inr (List.mem_cons_of_mem x h2)
    · rw [if_neg hc] at h
      exact Or.inl h

lemma addLeast_nodup {m : List ℤ} :
    ∀ {s : List ℤ} {n : ℕ}, s.Nodup → (addLeast s m n).Nodup := by
  induction m with
  | nil => exact fun h => h
  | cons x rest ih =>
    intro s n h
    rw [addLeast]
    by_cases hc : s.length < n ∧ x ∉ s
    · rw [if_pos hc]
      refine ih ?_
      simp [List.nodup_append, h, hc.2]
    · rwa [if_neg hc]

lemma addLeast_length_le {m : List ℤ} :
    ∀ {s : List ℤ} {n : ℕ}, s.length ≤ n → (addLeast s m n).length ≤ n := by
  induction m with
  | nil => exact fun h => h
  | cons x rest ih =>
    intro s n h
    rw [addLeast]
    by_cases hc : s.length < n ∧ x ∉ s
    · rw [if_pos hc]
      refine ih ?_
      rw [List.length_append, List.length_singleton]
      exact hc.1
    · rwa [if_neg hc]

lemma fillFrom_mem {a : List ℤ} :
    ∀ {s : List ℤ} {n : ℕ} {y : ℤ}, y ∈ fillFrom s a n → y ∈ s ∨ y ∈ a := by
  induction a with
  | nil =>
    intro s n y h
    exact Or.inl h
  | cons x rest ih =>
    intro s n y h
    rw [fillFrom] at h
    by_cases hc : s.length < n
    · rw [if_pos hc] at h
      rcases ih h with h2 | h2
      · rcases mem_setInsert.mp h2 with h3 | rfl
        · exact Or.inl h3
        · exact Or.inr (List.mem_cons_self y rest)
      · exact Or.inr (List.mem_cons_of_mem x h2)
    · rw [if_neg hc] at h
      exact Or.inl h

lemma fillFrom_nodup {a : List ℤ} :
    ∀ {s : List ℤ} {n : ℕ}, s.Nodup → (fillFrom s a n).Nodup := by
  induction a with
  | nil => exact fun h => h
  | cons x rest ih =>
    intro s n h
    rw [fillFrom]
    by_cases hc : s.length < n
    · rw [if_pos hc]
      exact ih (setInsert_nodup h x)
    · rwa [if_neg hc]

lemma fillFrom_length_eq {a : List ℤ} :
    ∀ {s : List ℤ} {n : ℕ}, a.Nodup → (∀ x ∈ a, x ∉ s) → s.length ≤ n →
      (fillFrom s a n).length = min n (s.length + a.length) := by
  induction a with
  | nil =>
    intro s n _ _ hle
    rw [fillFrom, List.length_nil, Nat.add_zero,
      Nat.min_eq_right hle]
  | cons x rest ih =>
    intro s n ha hdisj hle
    rw [fillFrom]
    by_cases hc : s.length < n
    · rw [if_pos hc]
      have hxs : x ∉ s := hdisj x (List.mem_cons_self x rest)
      have hins : setInsert s x = s ++ [x] := by
        rw [setInsert, if_neg hxs]
      have hlen : (setInsert s x).length = s.length + 1 := by
        rw [hins, List.length_append, List.length_singleton]
      have hrest : ∀ y ∈ rest, y ∉ setInsert s x := by
        intro y hy hmem
        rcases mem_setInsert.mp hmem with h2 | rfl
        · exact hdisj y (List.mem_cons_of_mem x hy) h2
        · exact (List.nodup_cons.mp ha).1 hy
      rw [ih (List.nodup_cons.mp ha).2 hrest (by rw [hlen]; exact hc), hlen,
        List.length_cons]
      congr 1
      ring
    · rw [if_neg hc]
      have hsn : s.length = n := le_antisymm hle (Nat.le_of_not_lt hc)
      rw [Nat.min_eq_left]
      · exact hsn
      · rw [hsn]
        exact Nat.le_add_right n _

lemma allPossible_nodup : allPossible.Nodup := by
  rw [allPossible]
  refine List.Nodup.map ?_ (List.nodup_range 60)
  intro a b hab
  simp only at hab
  have : (a : ℤ) = (b : ℤ) := by linarith [hab]
  exact_mod_cast this

lemma mem_allPossible {x : ℤ} : x ∈ allPossible ↔ 1 ≤ x ∧ x ≤ 60 := by
  rw [allPossible]
  simp only [List.mem_map, List.mem_range]
  constructor
  · rintro ⟨i, hi, rfl⟩
    omega
  · rintro ⟨h1, h2⟩
    refine ⟨(x - 1).toNat, by omega, by omega⟩

lemma allPossible_length : allPossible.length = 60 := by
  rw [allPossible, List.length_map, List.length_range]

lemma filter_not_mem_allPossible_length {s : List ℤ} (hs : s.Nodup)
    (hsub : ∀ x ∈ s, x ∈ allPossible) :
    (allPossible.filter (fun x => decide (x ∉ s))).length =
      60 - s.length := by
  have hperm : (allPossible.filter (fun x => decide (x ∈ s))).Perm s := by
    rw [List.perm_ext_iff_of_nodup (allPossible_nodup.filter _) hs]
    intro a
    simp only [List.mem_filter, decide_eq_true_eq]
    constructor
    · rintro ⟨-, h⟩
      exact h
    · intro h
      exact ⟨hsub a h, h⟩
  have hsplit := List.length_eq_length_filter_add
    (l := allPossible) (fun x => decide (x ∈ s))
  have hnot : (allPossible.filter
        (fun x => ! decide (x ∈ s))).length =
      (allPossible.filter (fun x => decide (x ∉ s))).length := by
    congr 1
    apply List.filter_congr
    intro x _
    simp
  rw [allPossible_length, hperm.length_eq, hnot] at hsplit
  omega

/-- C1: for any lawful random source and any duplicate-free lists of
in-range most/least-common numbers, `suggest_numbers` returns exactly
`n` distinct integers in [1, 60] in strictly ascending order whenever
`6 ≤ n ≤ 60`; for `n > 60` the pool of 60 numbers is exhausted and the
result has length 60, shorter than requested. -/
theorem suggest_numbers_shape (r : RandomSource) (hr : r.Lawful)
    (mc lc : List ℤ) (n : ℕ) (hmcd : mc.Nodup) (hlcd : lc.Nodup)
    (hmc : ∀ x ∈ mc, 1 ≤ x ∧ x ≤ 60) (hlc : ∀ x ∈ lc, 1 ≤ x ∧ x ≤ 60) :
    (6 ≤ n → n ≤ 60 →
      (suggest_numbers r mc lc n).length = n ∧
      List.Sorted (fun a b : ℤ => a < b) (suggest_numbers r mc lc n) ∧
      ∀ x ∈ suggest_numbers r mc lc n, 1 ≤ x ∧ x ≤ 60) ∧
    (60 < n →
      (suggest_numbers r mc lc n).length = 60 ∧
      (suggest_numbers r mc lc n).length < n ∧
      List.Sorted (fun a b : ℤ => a < b) (suggest_numbers r mc lc n) ∧
      ∀ x ∈ suggest_numbers r mc lc n, 1 ≤ x ∧ x ≤ 60) := by
  set s2 := addLeast (addMost [] mc n) lc n with hs2
  have h2nodup : s2.Nodup := addLeast_nodup (addMost_nodup List.nodup_nil)
  have h2sub : ∀ x ∈ s2, x ∈ allPossible := by
    intro x hx
    rcases addLeast_mem hx with h | h
    · rcases addMost_mem h with h2 | h2
      · exact absurd h2 (List.not_mem_nil x)
      · exact mem_allPossible.mpr (hmc x h2)
    · exact mem_allPossible.mpr (hlc x h)
  have h2len : s2.length ≤ n :=
    addLeast_length_le (addMost_length_le (Nat.zero_le n))
  have h2le60 : s2.length ≤ 60 := by
    have := (List.subperm_of_subset h2nodup h2sub).length_le
    rwa [allPossible_length] at this
  set avail := r.shuffle (allPossible.filter (fun x => decide (x ∉ s2)))
    with havail
  have havperm : avail.Perm
      (allPossible.filter (fun x => decide (x ∉ s2))) := hr.1 _
  have havnodup : avail.Nodup :=
    havperm.nodup_iff.mpr (allPossible_nodup.filter _)
  have havdisj : ∀ x ∈ avail, x ∉ s2 := by
    intro x hx
    have h2 := havperm.mem_iff.mp hx
    simp only [List.mem_filter, decide_eq_true_eq] at h2
    exact h2.2
  have havsub : ∀ x ∈ avail, x ∈ allPossible := by
    intro x hx
    have h2 := havperm.mem_iff.mp hx
    simp only [List.mem_filter, decide_eq_true_eq] at h2
    exact h2.1
  have havlen : avail.length = 60 - s2.length := by
    rw [havperm.length_eq, filter_not_mem_allPossible_length h2nodup h2sub]
  set s3 := fillFrom s2 avail n with hs3
  have h3nodup : s3.Nodup := fillFrom_nodup h2nodup
  have h3sub : ∀ x ∈ s3, x ∈ allPossible := by
    intro x hx
    rcases fillFrom_mem hx with h | h
    · exact h2sub x h
    · exact havsub x h
  have h3len : s3.length = min n 60 := by
    rw [hs3, fillFrom_length_eq havnodup havdisj h2len, havlen,
      Nat.add_sub_cancel' h2le60]
  set final := List.insertionSort (fun a b : ℤ => a ≤ b) s3 with hfinal
  have hfperm : final.Perm s3 := List.perm_insertionSort _ _
  have hfnodup : final.Nodup := hfperm.nodup_iff.mpr h3nodup
  have hflen : final.length = min n 60 := by
    rw [hfperm.length_eq, h3len]
  have hfsorted : List.Sorted (fun a b : ℤ => a < b) final :=
    (List.sorted_insertionSort _ _).lt_of_le hfnodup
  have hfrange : ∀ x ∈ final, 1 ≤ x ∧ x ≤ 60 := fun x hx =>
    mem_allPossible.mp (h3sub x (hfperm.mem_iff.mp hx))
  have hdef : suggest_numbers r mc lc n =
      (if n < final.length then
        List.insertionSort (fun a b : ℤ => a ≤ b) (r.sample final n)
      else if final.length < n then
        List.insertionSort (fun a b : ℤ => a ≤ b)
          (final ++ r.sample
            (r.shuffle (allPossible.filter (fun x => decide (x ∉ s3))))
            (min (n - final.length)
              (r.shuffle (allPossible.filter
                (fun x => decide (x ∉ s3)))).length))
      else final) := rfl
  constructor
  · intro _ h60
    have hfn : final.length = n := by
      rw [hflen]
      exact Nat.min_eq_left h60
    have heq : suggest_numbers r mc lc n = final := by
      rw [hdef, if_neg (by rw [hfn]; exact lt_irrefl n),
        if_neg (by rw [hfn]; exact lt_irrefl n)]
    rw [heq]
    exact ⟨hfn, hfsorted, hfrange⟩
  · intro h60
    have hfn : final.length = 60 := by
      rw [hflen]
      exact Nat.min_eq_right (le_of_lt h60)
    have h3perm : s3.Perm allPossible :=
      (List.subperm_of_subset h3nodup h3sub).perm_of_length_le
        (by rw [allPossible_length, h3len, Nat.min_eq_right (le_of_lt h60)])
    have hfilter : allPossible.filter (fun x => decide (x ∉ s3)) = [] := by
      rw [List.filter_eq_nil_iff]
      intro a ha
      simp only [decide_eq_true_eq, Decidable.not_not]
      exact h3perm.symm.mem_iff.mp ha
    have hrem : r.shuffle (allPossible.filter (fun x => decide (x ∉ s3)))
        = [] := by
      rw [hfilter]
      exact (hr.1 []).eq_nil
    have hsample : r.sample ([] : List ℤ) (min (n - final.length)
        ([] : List ℤ).length) = [] := by
      apply List.length_eq_zero.mp
      have h2 := hr.2 [] (min (n - final.length) ([] : List ℤ).length)
        (by simp)
      rw [h2]
      simp
    have heq : suggest_numbers r mc lc n =
        List.insertionSort (fun a b : ℤ => a ≤ b) final := by
      rw [hdef, if_neg (by rw [hfn]; omega), if_pos (by rw [hfn]; omega),
        hrem, hsample, List.append_nil]
    have hperm2 : (List.insertionSort (fun a b : ℤ => a ≤ b) final).Perm
        final := List.perm_insertionSort _ _
    have hnodup2 : (List.insertionSort (fun a b : ℤ => a ≤ b) final).Nodup :=
      hperm2.nodup_iff.mpr hfnodup
    rw [heq]
    refine ⟨?_, ?_, ?_, ?_⟩
    · rw [hperm2.length_eq, hfn]
    · rw [hperm2.length_eq, hfn]
      exact h60
    · exact (List.sorted_insertionSort _ _).lt_of_le hnodup2
    · intro x hx
      exact hfrange x (hperm2.mem_iff.mp hx)

/-- Witness for C1: the identity random source with empty hot/cold lists
returns the six smallest numbers, sorted, distinct, in range; with
`n = 61` it returns all 60 numbers. -/
theorem suggest_numbers_shape_witness :
    (suggest_numbers idRand [] [] 6).length = 6 ∧
    List.Sorted (fun a b : ℤ => a < b) (suggest_numbers idRand [] [] 6) ∧
    (∀ x ∈ suggest_numbers idRand [] [] 6, 1 ≤ x ∧ x ≤ 60) ∧
    (suggest_numbers idRand [] [] 61).length = 60 := by
  have hlaw : idRand.Lawful := by
    constructor
    · intro l
      exact List.Perm.refl l
    · intro l k hk
      rw [idRand]
      simpa using hk
  have h6 := (suggest_numbers_shape idRand hlaw [] [] 6 List.nodup_nil
    List.nodup_nil (by simp) (by simp)).1 (le_refl 6) (by norm_num)
  have h61 := (suggest_numbers_shape idRand hlaw [] [] 61 List.nodup_nil
    List.nodup_nil (by simp) (by simp)).2 (by norm_num)
  exact ⟨h6.1, h6.2.1, h6.2.2, h61.1⟩

lemma popVariance_nonneg (l : List ℚ) : 0 ≤ popVariance l := by
  rw [popVariance]
  apply div_nonneg
  · apply List.sum_nonneg
    intro x hx
    obtain ⟨y, _, rfl⟩ := List.mem_map.mp hx
    exact sq_nonneg _
  · exact Nat.cast_nonneg _

lemma moving_average_length (data : List ℚ) (w : ℕ) :
    (moving_average data w).length = data.length := by
  rw [moving_average]
  by_cases hw : w = 0
  · rw [if_pos hw, List.length_map]
  · rw [if_neg hw, convSame, List.length_map, List.length_range]

lemma odInsert_append_of_fresh {β : Type} {d : List (ℤ × β)} {k : ℤ}
    (v : β) (h : k ∉ d.map Prod.fst) : odInsert d k v = d ++ [(k, v)] := by
  rw [odInsert, if_neg]
  intro hc
  rw [List.contains_eq_any_beq] at hc
  obtain ⟨x, hx, hxk⟩ := List.any_eq_true.mp hc
  rw [beq_iff_eq] at hxk
  exact h (hxk ▸ hx)

lemma get?_keys_ne {freqS : List (ℤ × ℚ)}
    (hnd : (freqS.map Prod.fst).Nodup) {i j : ℕ} (hij : i ≠ j)
    {q q2 : ℤ × ℚ} (hi : freqS.get? i = some q)
    (hj : freqS.get? j = some q2) : q.1 ≠ q2.1 := by
  intro hc
  apply hij
  have hlen : i < freqS.length := by
    rcases List.get?_eq_some.mp hi with ⟨h, -⟩
    exact h
  have hlen2 : i < (freqS.map Prod.fst).length := by
    rwa [List.length_map]
  apply List.get?_inj hlen2 hnd
  rw [List.get?_map, List.get?_map, hi, hj]
  simp [hc]

lemma foldl_anomaly_insert (freqS : List (ℤ × ℚ))
    (cond : ℕ × ℚ × ℚ → Prop) [DecidablePred cond]
    (hnd : (freqS.map Prod.fst).Nodup) :
    ∀ (L : List (ℕ × ℚ × ℚ)) (d : List (ℤ × ℚ)),
      (∀ p ∈ L, ∀ q : ℤ × ℚ, freqS.get? p.1 = some q →
        q.1 ∉ d.map Prod.fst) →
      L.Pairwise (fun p p2 => p.1 ≠ p2.1) →
      (L.foldl (fun d p =>
        if cond p then
          match freqS.get? p.1 with
          | some q => odInsert d q.1 p.2.1
          | none => d
        else d) d) =
      d ++ L.filterMap (fun p =>
        if cond p then (freqS.get? p.1).map (fun q => (q.1, p.2.1))
        else none) := by
  intro L
  induction L with
  | nil =>
    intro d _ _
    rw [List.foldl_nil, List.filterMap_nil, List.append_nil]
  | cons p rest ih =>
    intro d hfresh hpair
    rw [List.foldl_cons, List.filterMap_cons]
    by_cases hc : cond p
    · rw [if_pos hc, if_pos hc]
      cases hget : freqS.get? p.1 with
      | none =>
        simp only [Option.map_none']
        exact ih d (fun p2 hp2 => hfresh p2 (List.mem_cons_of_mem p hp2))
          (List.Pairwise.sublist (List.sublist_cons_self p rest) hpair)
      | some q =>
        simp only [Option.map_some']
        have hfr : q.1 ∉ d.map Prod.fst :=
          hfresh p (List.mem_cons_self p rest) q hget
        rw [odInsert_append_of_fresh _ hfr]
        rw [ih (d ++ [(q.1, p.2.1)]) ?_ ?_]
        · rw [List.append_assoc]
          rfl
        · intro p2 hp2 q2 hq2
          rw [List.map_append, List.mem_append]
          rintro (hmem | hmem)
          · exact hfresh p2 (List.mem_cons_of_mem p hp2) q2 hq2 hmem
          · simp only [List.map_cons, List.map_nil,
              List.mem_singleton] at hmem
            have hne : p.1 ≠ p2.1 :=
              (List.pairwise_cons.mp hpair).1 p2 hp2
            exact get?_keys_ne hnd hne hget hq2 hmem.symm
        · exact List.Pairwise.sublist (List.sublist_cons_self p rest) hpair
    · rw [if_neg hc, if_neg hc]
      exact ih d (fun p2 hp2 => hfresh p2 (List.mem_cons_of_mem p hp2))
        (List.Pairwise.sublist (List.sublist_cons_self p rest) hpair)

/-- C5: for a frequency table with distinct keys, a window
`1 ≤ w ≤ len(y)` and non-negative sigma, the anomalies dict of
`explain_anomalies` consists of the pairs `(freq.index[i], y[i])` for
exactly those positions whose frequency deviates from the centred moving
average by more than sigma times the population standard deviation of
the full residual vector, emitted in the ranking-sequence order of the
input table (the enumeration order `i = 0, 1, ...`); the exact rational
test of the embedding is equivalent to the spec's
`y_i > avg_i + sigma*std  OR  y_i < avg_i - sigma*std` test over ℝ,
where `std` is the square root of the residual variance. -/
theorem anomalies_sigma_band_rank_order (freqS : List (ℤ × ℚ)) (w : ℕ)
    (sigma : ℚ) (y avg : List ℚ) (v : ℚ)
    (hy : y = freqS.map Prod.snd) (havg : avg = moving_average y w)
    (hv : v = popVariance (y.zipWith (fun a b => a - b) avg))
    (hw1 : 1 ≤ w) (hwlen : w ≤ freqS.length) (hs : 0 ≤ sigma)
    (hnd : (freqS.map Prod.fst).Nodup) :
    (explain_anomalies freqS w sigma).2 =
      ((y.zip avg).enum.filter (fun p =>
        decide (sigma ^ 2 * v < (p.2.1 - p.2.2) ^ 2))).filterMap
        (fun p => (freqS.get? p.1).map (fun q => (q.1, p.2.1))) ∧
    (∀ i, i < freqS.length →
      (sigma ^ 2 * v < (y.getD i 0 - avg.getD i 0) ^ 2 ↔
        ((y.getD i 0 : ℝ) > (avg.getD i 0 : ℝ) +
            sigma * Real.sqrt (v : ℝ) ∨
          (y.getD i 0 : ℝ) < (avg.getD i 0 : ℝ) -
            sigma * Real.sqrt (v : ℝ)))) := by
  subst hv
  subst havg
  subst hy
  have hguard : ¬ ((freqS.map Prod.snd).length < w) := by
    rw [List.length_map]
    omega
  constructor
  · have hstep : (explain_anomalies freqS w sigma).2 =
        ((freqS.map Prod.snd).zip
          (moving_average (freqS.map Prod.snd) w)).enum.foldl
          (fun d p =>
            if sigma ^ 2 * popVariance ((freqS.map Prod.snd).zipWith
                (fun a b => a - b)
                (moving_average (freqS.map Prod.snd) w)) <
              (p.2.1 - p.2.2) ^ 2 then
              match freqS.get? p.1 with
              | some q => odInsert d q.1 p.2.1
              | none => d
            else d) [] := by
      rw [explain_anomalies, if_neg hguard]
    have hpairwise : (((freqS.map Prod.snd).zip
        (moving_average (freqS.map Prod.snd) w)).enum).Pairwise
        (fun p p2 => p.1 ≠ p2.1) := by
      apply List.pairwise_map.mp
      rw [List.enum_map_fst]
      exact (List.nodup_range _).pairwise_of_forall_ne (fun a _ b _ h => h)
    rw [hstep, foldl_anomaly_insert freqS _ hnd _ [] (by simp) hpairwise,
      List.nil_append, List.filterMap_filter]
    congr 1
    funext p
    by_cases hp : sigma ^ 2 * popVariance ((freqS.map Prod.snd).zipWith
        (fun a b => a - b) (moving_average (freqS.map Prod.snd) w)) <
        (p.2.1 - p.2.2) ^ 2
    · rw [if_pos hp, if_pos (by simpa using hp)]
    · rw [if_neg hp, if_neg (by simpa using hp)]
  · intro i _
    set yv := (freqS.map Prod.snd).getD i 0 with hyv
    set av := (moving_average (freqS.map Prod.snd) w).getD i 0 with hav
    set vv := popVariance ((freqS.map Prod.snd).zipWith (fun a b => a - b)
      (moving_average (freqS.map Prod.snd) w)) with hvv
    have hv0 : (0 : ℚ) ≤ vv := by
      rw [hvv]
      exact popVariance_nonneg _
    have hv0R : (0 : ℝ) ≤ (vv : ℝ) := by exact_mod_cast hv0
    have hsR : (0 : ℝ) ≤ (sigma : ℝ) := by exact_mod_cast hs
    have hS : (0 : ℝ) ≤ (sigma : ℝ) * Real.sqrt (vv : ℝ) :=
      mul_nonneg hsR (Real.sqrt_nonneg _)
    have hsq : ((sigma : ℝ) * Real.sqrt (vv : ℝ)) ^ 2 =
        (sigma : ℝ) ^ 2 * (vv : ℝ) := by
      rw [mul_pow, Real.sq_sqrt hv0R]
    constructor
    · intro h
      have hR : (sigma : ℝ) ^ 2 * (vv : ℝ) <
          ((yv : ℝ) - (av : ℝ)) ^ 2 := by
        have : ((sigma ^ 2 * vv : ℚ) : ℝ) < (((yv - av) ^ 2 : ℚ) : ℝ) := by
          exact_mod_cast h
        push_cast at this
        convert this using 2
      by_cases hd : (av : ℝ) ≤ (yv : ℝ)
      · left
        nlinarith [hsq, hS]
      · right
        push_neg at hd
        nlinarith [hsq, hS]
    · intro h
      have hR : (sigma : ℝ) ^ 2 * (vv : ℝ) <
          ((yv : ℝ) - (av : ℝ)) ^ 2 := by
        rcases h with h | h
        · nlinarith [hsq, hS]
        · nlinarith [hsq, hS]
      have : ((sigma ^ 2 * vv : ℚ) : ℝ) < (((yv - av) ^ 2 : ℚ) : ℝ) := by
        push_cast
        convert hR using 2
      exact_mod_cast this

/-- Witness for C5 at the concrete table 1→5, 2→5, 3→1, 4→1 with window
2 and sigma 1.5: position 0 is the only anomaly (residuals [2.5, 0, -2,
0], variance 163/64), so the anomalies dict is [(1, 5)]. -/
theorem anomalies_sigma_band_witness :
    (explain_anomalies [((1 : ℤ), (5 : ℚ)), (2, 5), (3, 1), (4, 1)] 2
      (3 / 2)).2 = [((1 : ℤ), (5 : ℚ))] := by
  have h := anomalies_sigma_band_rank_order
    [((1 : ℤ), (5 : ℚ)), (2, 5), (3, 1), (4, 1)] 2 (3 / 2) _ _ _ rfl rfl rfl
    (by norm_num) (by norm_num) (by norm_num) (by decide)
  have ht2 : ((2 : ℤ)).toNat = 2 := rfl
  have ht3 : ((3 : ℤ)).toNat = 3 := rfl
  rw [h.1]
  norm_num [ht2, ht3, moving_average, convSame, padGet, popVariance,
    List.enum, List.enumFrom, List.zipWith, List.zip, List.range_succ,
    List.range_zero, List.sum_append, List.sum_cons, List.sum_nil,
    List.filter, List.filterMap, List.getD, List.get?, Int.toNat_ofNat,
    List.getElem_cons_zero, List.getElem_cons_succ]
